import Mathlib

/-!
Verification of the degree-preserving network rewiring engine of
`src/rewire_network.py` (configuration-model generator).

The Python module is embedded shallowly:

* The shared `random` stream is modelled by `RState`: an abstract PRNG
  (`seedFn`, mapping a seed to an infinite stream of raw draws), the
  current stream, and a position.  `random.choice(a)` consumes one raw
  draw `v` and returns `a[v % len(a)]`; `random.seed(s)` replaces the
  current stream by `seedFn s` and resets the position.  All theorems
  quantify over the PRNG, so nothing depends on the concrete generator.
* Python dicts are embedded as insertion-ordered association lists
  (`List (K × Nat)`); a well-formed dict has `Nodup` keys.
* Exceptions become explicit result constructors: `ValueError` raised by
  `limited_random_choice` is `.invalid`, its `return None` is
  `.exhausted`, and an uncaught `IndexError`/`KeyError` (e.g.
  `random.choice` on an empty pool) is `.crash`.
* The `while` loops become fuel recursion.  `limited_random_choice`'s
  loop counts `k` up to `threshold`, so `threshold - k` is the natural
  fuel; `rewire_network`'s loop removes one key from `req` per round, so
  `len(req) + 1` fuel always suffices (proved below); the leftover
  `.fuelOut` constructor is proved unreachable for that fuel.
-/

namespace RewireNet

/-- State of the shared `random` stream: the PRNG (`seedFn`), the current
raw-draw stream and the position of the next draw. -/
structure RState where
  seedFn : Int → Nat → Nat
  stream : Nat → Nat
  pos : Nat

/-- One raw draw from the stream (`random` consuming entropy). -/
def draw (st : RState) : Nat × RState :=
  (st.stream st.pos, ⟨st.seedFn, st.stream, st.pos + 1⟩)

/-- Python truthiness of an `Optional[int]` seed: `if seed:` is taken
exactly when the seed is present and nonzero. -/
def truthySeed : Option Int → Bool
  | none => false
  | some s => s != 0

/-- `if seed: random.seed(seed)` — reseed the stream when the seed is
truthy, otherwise leave the stream untouched. -/
def maybeSeed (seed : Option Int) (st : RState) : RState :=
  match seed with
  | none => st
  | some s => if s != 0 then ⟨st.seedFn, st.seedFn s, 0⟩ else st

/-- `sum(d.values())` of a dict embedded as an association list. -/
def sumValues {K : Type} (l : List (K × Nat)) : Nat :=
  (l.map (·.2)).sum

/-- Dict lookup returning `none` when the key is absent (`s in d` plus
`d[s]`). -/
def dictFind? {K : Type} [BEq K] (l : List (K × Nat)) (k : K) : Option Nat :=
  (l.find? (·.1 == k)).map (·.2)

/-- Dict lookup defaulting to 0 for absent keys; used only to state
theorems uniformly. -/
def dictGet {K : Type} [BEq K] (l : List (K × Nat)) (k : K) : Nat :=
  (dictFind? l k).getD 0

/-- `d[k] += 1` on the (unique, if keys are `Nodup`) entry with key `k`. -/
def incrKey {K : Type} [BEq K] (l : List (K × Nat)) (k : K) : List (K × Nat) :=
  l.map (fun p => if p.1 == k then (p.1, p.2 + 1) else p)

/-- `d[k] -= 1` on the (unique, if keys are `Nodup`) entry with key `k`. -/
def decrKey {K : Type} [BEq K] (l : List (K × Nat)) (k : K) : List (K × Nat) :=
  l.map (fun p => if p.1 == k then (p.1, p.2 - 1) else p)

/-- Keys of a dict, in insertion order (`list(d)`). -/
def keysOf {K : Type} (l : List (K × Nat)) : List K :=
  l.map (·.1)

/-- Outcome of `limited_random_choice`: a successful triple
(result list, counter dict, miss count), the `return None` of the draw
threshold (`SamplingExhausted`), the `ValueError` (`InvalidRequest`), or
an uncaught exception (empty-pool `random.choice` / missing `limits` key). -/
inductive LrcResult (K : Type) where
  | ok (result : List K) (counter : List (K × Nat)) (miss : Nat)
  | exhausted
  | invalid
  | crash
deriving DecidableEq

/-- The rejection-sampling `while` loop of `limited_random_choice`.

Fuel is `threshold - k`: the Python loop increments `k` and returns
`None` when `k == threshold`, i.e. when the fuel has dropped to 1.
(Initial fuel 0, reachable only for `threshold = 0` where the Python
guard `k == threshold` can never fire and the loop may run unboundedly,
is mapped to `.exhausted` as well; no caller uses `threshold = 0`.) -/
def lrcLoop {K : Type} [BEq K] (a : List K) (n : Nat) (limits : List (K × Nat)) :
    Nat → List (K × Nat) → List K → Nat → RState → LrcResult K × RState
  | 0, counter, result, miss, st =>
    if n ≤ sumValues counter then (.ok result counter miss, st) else (.exhausted, st)
  | fuel + 1, counter, result, miss, st =>
    if n ≤ sumValues counter then (.ok result counter miss, st)
    else if fuel = 0 then (.exhausted, st)
    else
      match a with
      | [] => (.crash, st)
      | x :: xs =>
        let v := (draw st).1
        let st' := (draw st).2
        let s := (x :: xs).get ⟨v % (x :: xs).length, Nat.mod_lt _ (Nat.succ_pos _)⟩
        match dictFind? counter s with
        | none => lrcLoop a n limits fuel (counter ++ [(s, 1)]) (result ++ [s]) miss st'
        | some c =>
          match dictFind? limits s with
          | none => (.crash, st')
          | some lim =>
            if c < lim then lrcLoop a n limits fuel (incrKey counter s) (result ++ [s]) miss st'
            else lrcLoop a n limits fuel counter result (miss + 1) st'

/-- `limited_random_choice(a, n, limits, seed, threshold)`: raise
`ValueError` (`.invalid`) before any draw if `n` exceeds the sum of the
limits; otherwise optionally reseed, then rejection-sample. -/
def limited_random_choice {K : Type} [BEq K] (a : List K) (n : Nat)
    (limits : List (K × Nat)) (seed : Option Int) (threshold : Nat)
    (st : RState) : LrcResult K × RState :=
  if sumValues limits < n then (.invalid, st)
  else lrcLoop a n limits threshold [] [] 0 (maybeSeed seed st)

/-- Outcome of `rewire_network`: an edge list, the `np.NaN` failure value,
an uncaught exception, or exhaustion of the recursion fuel (proved
unreachable for the fuel supplied by `rewire_network`). -/
inductive RewireResult (K : Type) where
  | ok (edges : List (K × K))
  | nan
  | crash
  | fuelOut
deriving DecidableEq

/-- Ascending stable sort by remaining degree:
`dict(sorted(req.items(), key=lambda x: x[1]))`.  Python's `sorted` is a
stable ascending sort, as is `List.insertionSort` with `≤` on values. -/
def sortByValue {K : Type} (l : List (K × Nat)) : List (K × Nat) :=
  List.insertionSort (fun p q : K × Nat => p.2 ≤ q.2) l

/-- The `while` loop of `rewire_network`.  One iteration: stable-sort the
remaining degrees ascending, drop exhausted nodes, pop the last (maximal)
node as this round's hub, and ask `limited_random_choice` for the hub's
stub count from the remaining pool (note the call passes `rewire`'s own
`seed` and no threshold, so the sampler threshold is its default
1,000,000).  On `ValueError` return NaN; on `None` *continue* with the
hub dropped; on success append the edges and decrement the chosen
degrees. -/
def rewireLoop {K : Type} [BEq K] :
    Nat → List (K × Nat) → List (K × K) → Option Int → RState →
    RewireResult K × RState
  | 0, _, _, _, st => (.fuelOut, st)
  | fuel + 1, req, res, seed, st =>
    if (req.filter (fun p => 0 < p.2)).isEmpty then (.ok res, st)
    else
      let srtd := (sortByValue req).filter (fun p => 0 < p.2)
      match srtd.getLast? with
      | none => (.crash, st)
      | some (q0, q1) =>
        let req' := srtd.eraseP (fun p => p.1 == q0)
        match limited_random_choice (keysOf req') q1 req' seed 1000000 st with
        | (.invalid, st') => (.nan, st')
        | (.crash, st') => (.crash, st')
        | (.exhausted, st') => rewireLoop fuel req' res seed st'
        | (.ok result _ _, st') =>
          rewireLoop fuel (result.foldl (fun acc i => decrKey acc i) req')
            (res ++ result.map (fun i => (q0, i))) seed st'

/-- `rewire_network(g, seed, threshold)`.  The `threshold` parameter is
accepted but never used by the Python function (it is not forwarded to
`limited_random_choice`).  `req` starts as the fresh filtered copy
`{k: v for k, v in g.items() if v > 0}`; fuel `len(req) + 1` always
suffices because every round removes the hub key from `req`. -/
def rewire_network {K : Type} [BEq K] (g : List (K × Nat)) (seed : Option Int)
    (threshold : Nat) (st : RState) : RewireResult K × RState :=
  let req := g.filter (fun p => 0 < p.2)
  rewireLoop (req.length + 1) req [] seed st

/-- Outcome of `generate_networks`: the full ensemble, the `None` return
(`EnsembleExhausted`), or a propagated uncaught exception. -/
inductive GenResult (K : Type) where
  | ok (nets : List (List (K × K)))
  | exhausted
  | crash
deriving DecidableEq

/-- The `while` loop of `generate_networks`.  Fuel is
`infinite_loop_threshold - k`: each attempt runs
`rewire_network(g)` (default seed `None`, default threshold 10,000),
appends on success, then returns `None` when the incremented counter hits
the threshold — even if the n-th success was just appended.  (Initial
fuel 0, reachable only for `infinite_loop_threshold = 0` where the Python
guard can never fire, is mapped to `.exhausted`; no caller uses 0.)
A `rewire_network` `.fuelOut` is mapped to `.crash`; it is unreachable
because `rewire_network` supplies sufficient fuel
(`rewireLoop_ne_fuelOut` below). -/
def genLoop {K : Type} [BEq K] (g : List (K × Nat)) (n : Nat) :
    Nat → List (List (K × K)) → RState → GenResult K × RState
  | 0, results, st =>
    if n ≤ results.length then (.ok results, st) else (.exhausted, st)
  | f + 1, results, st =>
    if n ≤ results.length then (.ok results, st)
    else
      match rewire_network g none 10000 st with
      | (.crash, st') => (.crash, st')
      | (.fuelOut, st') => (.crash, st')
      | (.ok e, st') =>
        if f = 0 then (.exhausted, st') else genLoop g n f (results ++ [e]) st'
      | (.nan, st') =>
        if f = 0 then (.exhausted, st') else genLoop g n f results st'

/-- `generate_networks(g, n, seed, infinite_loop_threshold)`: seed the
shared stream once (if the seed is truthy), then retry `rewire_network`
until `n` instances are collected or the attempt counter reaches the
threshold. -/
def generate_networks {K : Type} [BEq K] (g : List (K × Nat)) (n : Nat)
    (seed : Option Int) (infinite_loop_threshold : Nat) (st : RState) :
    GenResult K × RState :=
  genLoop g n infinite_loop_threshold [] (maybeSeed seed st)

/-- Degree of node `k` recomputed from an edge list, counting both
endpoints of every edge. -/
def degreeOf {K : Type} [BEq K] (edges : List (K × K)) (k : K) : Nat :=
  (edges.filter (fun e => e.1 == k)).length + (edges.filter (fun e => e.2 == k)).length

/-- No edge of the list is a self-loop. -/
def noSelfLoop {K : Type} (edges : List (K × K)) : Prop :=
  ∀ e ∈ edges, e.1 ≠ e.2

/-! ### GraphCodec: `convert_to_graph` and `convert_weighted_to_multigraph`

`convert_to_graph` builds a pandas frame with a constant `weight = 1`
column, groups it by the *ordered* `(source, target)` pair (pandas sorts
the group keys), counts each group, and feeds the rows to
`nx.from_pandas_edgelist`, which adds undirected edges one row at a time.
A networkx `Graph` is modelled as an insertion-ordered association list
from an ordered representative pair to the `weight` attribute;
`add_edge` on an existing undirected edge overwrites the attribute.
Which orientation networkx reports when iterating `g.edges` is
insertion-dependent; the claims below are stated up to orientation
(`undirCount`), so the model keeps the stored representative. -/

/-- Lexicographic order on ordered pairs — the order pandas `groupby`
produces for the `(source, target)` group keys. -/
def pairLex {K : Type} [LinearOrder K] (p q : K × K) : Prop :=
  p.1 < q.1 ∨ (p.1 = q.1 ∧ p.2 ≤ q.2)

instance pairLexDecidable {K : Type} [LinearOrder K] :
    DecidableRel (@pairLex K _) := fun p q =>
  inferInstanceAs (Decidable (_ ∨ _))

/-- The grouped rows of `res_df.groupby(["source", "target"]).count()`:
the distinct ordered pairs of the edge list in lexicographic order, each
with its occurrence count. -/
def groupRows {K : Type} [LinearOrder K] (el : List (K × K)) :
    List ((K × K) × Nat) :=
  (List.insertionSort pairLex el.dedup).map (fun e => (e, el.count e))

/-- Whether two ordered pairs denote the same undirected edge. -/
def sameUndir {K : Type} [DecidableEq K] (a b : K × K) : Bool :=
  (a.1 == b.1 && a.2 == b.2) || (a.1 == b.2 && a.2 == b.1)

/-- `nx.Graph.add_edge(u, v, weight=w)`: if the undirected edge already
exists, overwrite its `weight` attribute (keeping the stored
representative pair); otherwise append the new edge. -/
def addWeightedEdge {K : Type} [DecidableEq K] (g : List ((K × K) × Nat))
    (e : K × K) (w : Nat) : List ((K × K) × Nat) :=
  if g.any (fun p => sameUndir p.1 e) then
    g.map (fun p => if sameUndir p.1 e then (p.1, w) else p)
  else g ++ [(e, w)]

/-- `convert_to_graph(edgelist)`: group by ordered pair, then add each
row to an (initially empty) undirected weighted graph. -/
def convert_to_graph {K : Type} [LinearOrder K] (el : List (K × K)) :
    List ((K × K) × Nat) :=
  (groupRows el).foldl (fun g row => addWeightedEdge g row.1 row.2) []

/-- `convert_weighted_to_multigraph(g)`: expand every weighted edge into
`weight` parallel unweighted edges, in edge-iteration order. -/
def convert_weighted_to_multigraph {K : Type} (g : List ((K × K) × Nat)) :
    List (K × K) :=
  (g.map (fun p => List.replicate p.2 p.1)).flatten

/-- Occurrences of the undirected edge `{a, b}` in an edge list, counting
both orientations. -/
def undirCount {K : Type} [DecidableEq K] (el : List (K × K)) (a b : K) : Nat :=
  el.count (a, b) + el.count (b, a)

/-! ### Heap model for the frame claim

To state that `rewire_network` and `generate_networks` never mutate the
caller's degree-sequence dict, the dicts are placed in an explicit heap
of reference cells.  `rewire_network` reads the caller's cell once to
build the comprehension `{k: v for k, v in g.items() if v > 0}` in a
*fresh* cell; each loop round rebinds `req` to freshly allocated dicts
(`dict(sorted(...))`, the `v > 0` comprehension, `dict(req)`) and the
in-place `pop`/`req[i] -= 1` mutations hit only those fresh cells. -/

/-- A heap of dict cells: contents per reference plus the next fresh
reference.  References below `next` are the allocated ones. -/
structure Heap (K : Type) where
  cells : Nat → List (K × Nat)
  next : Nat

/-- Allocate a fresh cell holding `v`; returns its reference. -/
def halloc {K : Type} (h : Heap K) (v : List (K × Nat)) : Nat × Heap K :=
  (h.next, ⟨fun r => if r = h.next then v else h.cells r, h.next + 1⟩)

/-- Overwrite the cell at reference `r` (in-place dict mutation). -/
def hwrite {K : Type} (h : Heap K) (r : Nat) (v : List (K × Nat)) : Heap K :=
  ⟨fun q => if q = r then v else h.cells q, h.next⟩

/-- Heap-level `rewire_network` loop.  `ref` is the reference bound to
the Python variable `req` at the top of the loop; each round allocates
the three rebought dicts (`dict(sorted(req.items(), key=...))`, the
`v > 0` comprehension, and `dict(req)` after `pop` mutated the
comprehension) and mutates only them. -/
def rewireLoopH {K : Type} [BEq K] :
    Nat → Nat → Heap K → List (K × K) → Option Int → RState →
    RewireResult K × Heap K × RState
  | 0, _, h, _, _, st => (.fuelOut, h, st)
  | fuel + 1, ref, h, res, seed, st =>
    if ((h.cells ref).filter (fun p => 0 < p.2)).isEmpty then (.ok res, h, st)
    else
      let (r1, h1) := halloc h (sortByValue (h.cells ref))
      let (r2, h2) := halloc h1 ((h1.cells r1).filter (fun p => 0 < p.2))
      match (h2.cells r2).getLast? with
      | none => (.crash, h2, st)
      | some (q0, q1) =>
        let h3 := hwrite h2 r2 ((h2.cells r2).eraseP (fun p => p.1 == q0))
        let (r3, h4) := halloc h3 (h3.cells r2)
        match limited_random_choice (keysOf (h4.cells r3)) q1 (h4.cells r3)
            seed 1000000 st with
        | (.invalid, st') => (.nan, h4, st')
        | (.crash, st') => (.crash, h4, st')
        | (.exhausted, st') => rewireLoopH fuel r3 h4 res seed st'
        | (.ok result _ _, st') =>
          let h5 := result.foldl
            (fun hh i => hwrite hh r3 (decrKey (hh.cells r3) i)) h4
          rewireLoopH fuel r3 h5 (res ++ result.map (fun i => (q0, i))) seed st'

/-- Heap-level `rewire_network(g, seed, threshold)`: read the caller's
dict at `gref`, build the filtered copy in a fresh cell, and run the
loop on that fresh cell.  The caller's cell is never written. -/
def rewire_networkH {K : Type} [BEq K] (h : Heap K) (gref : Nat)
    (seed : Option Int) (threshold : Nat) (st : RState) :
    RewireResult K × Heap K × RState :=
  let g := h.cells gref
  let (reqRef, h1) := halloc h (g.filter (fun p => 0 < p.2))
  rewireLoopH ((g.filter (fun p => 0 < p.2)).length + 1) reqRef h1 [] seed st

/-- Heap-level `generate_networks` loop: each attempt passes the
caller's reference `gref` to `rewire_networkH` afresh. -/
def genLoopH {K : Type} [BEq K] (gref : Nat) (n : Nat) :
    Nat → List (List (K × K)) → Heap K → RState →
    GenResult K × Heap K × RState
  | 0, results, h, st =>
    if n ≤ results.length then (.ok results, h, st) else (.exhausted, h, st)
  | f + 1, results, h, st =>
    if n ≤ results.length then (.ok results, h, st)
    else
      match rewire_networkH h gref none 10000 st with
      | (.crash, h', st') => (.crash, h', st')
      | (.fuelOut, h', st') => (.crash, h', st')
      | (.ok e, h', st') =>
        if f = 0 then (.exhausted, h', st')
        else genLoopH gref n f (results ++ [e]) h' st'
      | (.nan, h', st') =>
        if f = 0 then (.exhausted, h', st') else genLoopH gref n f results h' st'

/-- Heap-level `generate_networks(g, n, seed, infinite_loop_threshold)`. -/
def generate_networksH {K : Type} [BEq K] (h : Heap K) (gref : Nat) (n : Nat)
    (seed : Option Int) (infinite_loop_threshold : Nat) (st : RState) :
    GenResult K × Heap K × RState :=
  genLoopH gref n infinite_loop_threshold [] h (maybeSeed seed st)

/-! ### General lemmas about the sampler loop -/

/-- The rejection loop never reseeds: it only advances the position of
the stream, so the stream function and the PRNG are preserved. -/
theorem lrcLoop_state_eq {K : Type} [BEq K] (a : List K) (n : Nat)
    (limits : List (K × Nat)) :
    ∀ (fuel : Nat) (counter : List (K × Nat)) (result : List K) (miss : Nat)
      (st : RState) (out : LrcResult K) (st' : RState),
      lrcLoop a n limits fuel counter result miss st = (out, st') →
      st'.stream = st.stream ∧ st'.seedFn = st.seedFn := by
  intro fuel
  induction fuel with
  | zero =>
    intro counter result miss st out st' h
    rw [lrcLoop.eq_1] at h
    split at h <;> (cases h; exact ⟨rfl, rfl⟩)
  | succ fuel ih =>
    intro counter result miss st out st' h
    cases a with
    | nil =>
      rw [lrcLoop.eq_2] at h
      split at h
      · cases h; exact ⟨rfl, rfl⟩
      · split at h <;> (cases h; exact ⟨rfl, rfl⟩)
    | cons x xs =>
      rw [lrcLoop.eq_3] at h
      split at h
      · cases h; exact ⟨rfl, rfl⟩
      · split at h
        · cases h; exact ⟨rfl, rfl⟩
        · dsimp only at h
          split at h
          · simpa [draw] using ih _ _ _ _ _ _ h
          · split at h
            · cases h; exact ⟨rfl, rfl⟩
            · split at h
              · simpa [draw] using ih _ _ _ _ _ _ h
              · simpa [draw] using ih _ _ _ _ _ _ h

/-! ### Fuel sufficiency of `rewireLoop` -/

/-- Decrementing a value preserves the length of the dict. -/
theorem length_foldl_decrKey {K : Type} [BEq K] :
    ∀ (result : List K) (req : List (K × Nat)),
      (result.foldl (fun acc i => decrKey acc i) req).length = req.length := by
  intro result
  induction result with
  | nil => intro req; rfl
  | cons i rest ih =>
    intro req
    simpa [List.foldl_cons, decrKey] using ih (decrKey req i)

/-- The last entry of a list is a member of the list. -/
theorem mem_of_getLast?_eq {α : Type _} {l : List α} {x : α}
    (h : l.getLast? = some x) : x ∈ l := by
  have hx := List.mem_getLast?_eq_getLast (l := l) (x := x) (by rw [h]; rfl)
  obtain ⟨hne, hx⟩ := hx
  subst hx
  exact List.getLast_mem hne

/-- Every round removes the popped hub from `req`, so fuel exceeding the
number of keys never runs out: the `.fuelOut` sentinel is unreachable. -/
theorem rewireLoop_ne_fuelOut {K : Type} [BEq K] [LawfulBEq K] :
    ∀ (fuel : Nat) (req : List (K × Nat)) (res : List (K × K))
      (seed : Option Int) (st : RState),
      req.length < fuel →
      (rewireLoop fuel req res seed st).1 ≠ .fuelOut := by
  intro fuel
  induction fuel with
  | zero => intro req res seed st h; omega
  | succ fuel ih =>
    intro req res seed st h
    rw [rewireLoop.eq_2]
    split
    · simp
    · next hne =>
      dsimp only
      have hlen : ((sortByValue req).filter (fun p => decide (0 < p.2))).length
          ≤ req.length := by
        calc ((sortByValue req).filter (fun p => decide (0 < p.2))).length
            ≤ (sortByValue req).length := List.length_filter_le _ _
          _ = req.length := List.length_insertionSort _ _
      split
      · simp
      · next q0 q1 hlast =>
        have hmem : (q0, q1) ∈ (sortByValue req).filter (fun p => decide (0 < p.2)) :=
          mem_of_getLast?_eq hlast
        have herase :
            (((sortByValue req).filter (fun p => decide (0 < p.2))).eraseP
              (fun p => p.1 == q0)).length
            = ((sortByValue req).filter (fun p => decide (0 < p.2))).length - 1 := by
          apply List.length_eraseP_of_mem hmem
          simp
        have hfil : 1 ≤ ((sortByValue req).filter (fun p => decide (0 < p.2))).length :=
          List.length_pos.mpr (List.ne_nil_of_mem hmem)
        split
        · simp
        · simp
        · apply ih
          omega
        · apply ih
          rw [length_foldl_decrKey]
          omega

/-- `rewire_network` supplies sufficient fuel, hence never reports
`.fuelOut`. -/
theorem rewire_network_ne_fuelOut {K : Type} [BEq K] [LawfulBEq K]
    (g : List (K × Nat)) (seed : Option Int) (threshold : Nat) (st : RState) :
    (rewire_network g seed threshold st).1 ≠ .fuelOut := by
  apply rewireLoop_ne_fuelOut
  omega

/-! ### Claim C5: InvalidRequest before any draw -/

/-- C5: whenever the requested count exceeds the sum of the limits,
`limited_random_choice` raises `ValueError` (InvalidRequest) at once:
the returned state is the input state, so no draw was performed and the
stream was neither consumed nor reseeded. -/
theorem claim5_invalid_before_any_draw {K : Type} [BEq K] (a : List K)
    (n : Nat) (limits : List (K × Nat)) (seed : Option Int) (threshold : Nat)
    (st : RState) (h : sumValues limits < n) :
    limited_random_choice a n limits seed threshold st = (.invalid, st) := by
  unfold limited_random_choice
  rw [if_pos h]

/-- Witness for C5 at Scenario D of the spec: pool `[1, 2, 3]`, `n = 7`,
limits `{1: 1, 2: 2, 3: 3}` (total capacity 6 < 7), from a mid-stream
state that is returned untouched. -/
theorem claim5_witness :
    sumValues [((1 : Nat), (1 : Nat)), (2, 2), (3, 3)] < 7 ∧
    limited_random_choice [1, 2, 3] 7 [(1, 1), (2, 2), (3, 3)] none 1000000
        ⟨fun _ _ => 0, fun k => k, 5⟩
      = (.invalid, ⟨fun _ _ => 0, fun k => k, 5⟩) :=
  ⟨by decide, claim5_invalid_before_any_draw _ _ _ _ _ _ (by decide)⟩

/-! ### Claim C10: the threshold parameter of rewire_network is dead -/

/-- C10: `rewire_network` accepts a `threshold` parameter but never uses
it (it is not forwarded to `limited_random_choice`, whose hard-coded call
keeps the sampler default of 1,000,000): two calls differing only in the
threshold argument — e.g. any value versus the default 10,000 — return
identical results for every degree sequence, seed and stream state. -/
theorem claim10_threshold_unused {K : Type} [BEq K] (g : List (K × Nat))
    (seed : Option Int) (t1 t2 : Nat) (st : RState) :
    rewire_network g seed t1 st = rewire_network g seed t2 st := rfl

/-! ### Claim C7: reproducibility of seeded ensembles -/

/-- C7 (amended): for a *nonzero* supplied seed, `generate_networks`
reseeds the shared stream once at the start, so two runs sharing the
same PRNG (`seedFn`) produce identical ensembles regardless of the prior
stream function and position.  Seed 0 is excluded: Python's `if seed:`
is false for 0, which `claim7_counterexample` exploits. -/
theorem claim7_seeded_reproducible {K : Type} [BEq K] (g : List (K × Nat))
    (n : Nat) (s : Int) (thr : Nat) (st1 st2 : RState) (hs : s ≠ 0)
    (hf : st1.seedFn = st2.seedFn) :
    (generate_networks g n (some s) thr st1).1
      = (generate_networks g n (some s) thr st2).1 := by
  unfold generate_networks maybeSeed
  have hsb : (s != 0) = true := by simpa using hs
  simp only [hsb, if_true, hf]

/-- Witness for C7 at seed 5 with two states at different positions and
different current streams but a common PRNG. -/
theorem claim7_witness :
    (5 : Int) ≠ 0 ∧
    (generate_networks [((0 : Nat), 1), (1, 1)] 1 (some 5) 3
        ⟨fun s k => s.natAbs + k, fun k => k, 0⟩).1
      = (generate_networks [((0 : Nat), 1), (1, 1)] 1 (some 5) 3
        ⟨fun s k => s.natAbs + k, fun _ => 9, 42⟩).1 :=
  ⟨by decide, claim7_seeded_reproducible _ _ _ _ _ _ (by decide) rfl⟩

/-- C7 counterexample: the claim ranges over *every* integer seed, but
for seed 0 Python's truthiness test skips reseeding, so the ensemble
depends on the prior state of the shared stream: identical seed (0),
identical degree sequence, identical `n`, two different prior stream
states, two different ensembles. -/
theorem claim7_counterexample :
    (generate_networks [((0 : Nat), 1), (1, 1), (2, 2)] 1 (some 0) 2
        ⟨fun _ _ => 0, fun k => k, 0⟩).1 = .ok [[(2, 0), (2, 1)]] ∧
    (generate_networks [((0 : Nat), 1), (1, 1), (2, 2)] 1 (some 0) 2
        ⟨fun _ _ => 0, fun k => k + 1, 0⟩).1 = .ok [[(2, 1), (2, 0)]] :=
  ⟨by rfl, by rfl⟩

/-! ### Claim C3: all-or-nothing ensembles -/

/-- If the ensemble loop enters holding at most `n` instances, then a
successful return holds exactly `n`. -/
theorem genLoop_ok_length {K : Type} [BEq K] (g : List (K × Nat)) (n : Nat) :
    ∀ (fuel : Nat) (results : List (List (K × K))) (st : RState)
      (res : List (List (K × K))) (st2 : RState),
      results.length ≤ n →
      genLoop g n fuel results st = (.ok res, st2) →
      res.length = n := by
  intro fuel
  induction fuel with
  | zero =>
    intro results st res st2 hle h
    rw [genLoop.eq_1] at h
    split at h
    · next hge => cases h; omega
    · simp at h
  | succ f ih =>
    intro results st res st2 hle h
    rw [genLoop.eq_2] at h
    split at h
    · next hge => cases h; omega
    · next hlt =>
      split at h
      · simp at h
      · simp at h
      · split at h
        · simp at h
        · refine ih _ _ _ _ ?_ h
          simp only [List.length_append, List.length_cons, List.length_nil]
          omega
      · split at h
        · simp at h
        · exact ih _ _ _ _ hle h

/-- C3 (amended): `generate_networks` never returns a partial ensemble —
any returned ensemble has exactly `n` members, and every other run ends
in the exhausted signal (or a propagated exception).  The boundary part
of the claim is corrected by `claim3_counterexample`: when the n-th
success lands on exactly the budget-th attempt the Python loop still
returns `None`, because the attempt counter is checked after appending;
the ensemble is returned exactly when `n` successes are collected in
strictly fewer attempts than the budget. -/
theorem claim3_ensemble_all_or_nothing {K : Type} [BEq K]
    (g : List (K × Nat)) (n : Nat) (seed : Option Int) (thr : Nat)
    (st : RState) (res : List (List (K × K))) (st2 : RState)
    (h : generate_networks g n seed thr st = (.ok res, st2)) :
    res.length = n :=
  genLoop_ok_length g n thr [] (maybeSeed seed st) res st2 (by simp) h

/-- Witness for C3: a run that succeeds within the budget returns an
ensemble of exactly `n = 1` instances. -/
theorem claim3_witness :
    generate_networks [((0 : Nat), 1), (1, 1)] 1 none 3
        ⟨fun _ _ => 0, fun _ => 0, 0⟩
      = (.ok [[(1, 0)]], ⟨fun _ _ => 0, fun _ => 0, 1⟩) ∧
    ([[((1 : Nat), (0 : Nat))]].length = 1) :=
  ⟨by rfl, claim3_ensemble_all_or_nothing [((0 : Nat), 1), (1, 1)] 1 none 3
    ⟨fun _ _ => 0, fun _ => 0, 0⟩ [[(1, 0)]] ⟨fun _ _ => 0, fun _ => 0, 1⟩ (by rfl)⟩

/-! ### Claim C4: sampler correctness — dict helper lemmas -/

/-- An absent key is not among the keys. -/
theorem not_mem_keysOf_of_dictFind?_eq_none {K : Type} [BEq K] [LawfulBEq K]
    {c : List (K × Nat)} {s : K} (h : dictFind? c s = none) :
    s ∉ keysOf c := by
  intro hs
  obtain ⟨p, hp, hps⟩ := List.exists_of_mem_map hs
  have hn : List.find? (fun q => q.1 == s) c = none := by
    unfold dictFind? at h
    exact Option.map_eq_none'.mp h
  have := List.find?_eq_none.mp hn p hp
  simp [hps] at this

/-- A key found in the dict is among the keys. -/
theorem mem_keysOf_of_dictFind?_eq_some {K : Type} [BEq K] [LawfulBEq K]
    {c : List (K × Nat)} {s : K} {v : Nat} (h : dictFind? c s = some v) :
    s ∈ keysOf c := by
  unfold dictFind? at h
  obtain ⟨p, hp⟩ := Option.map_eq_some'.mp h
  have hmem := List.mem_of_find?_eq_some hp.1
  have hbeq := List.find?_some hp.1
  have : p.1 = s := by simpa using hbeq
  exact this ▸ List.mem_map_of_mem _ hmem

/-- Looking up after inserting a fresh key at the end. -/
theorem dictGet_append_one {K : Type} [BEq K] [LawfulBEq K]
    (c : List (K × Nat)) (s k : K) :
    dictGet (c ++ [(s, 1)]) k
      = if dictFind? c k = none then (if k == s then 1 else 0)
        else dictGet c k := by
  unfold dictGet dictFind?
  rw [List.find?_append]
  rcases hf : List.find? (fun p => p.1 == k) c with _ | p
  · simp only [hf, Option.none_or, Option.map_none', Option.getD_none, if_pos rfl]
    rcases eq_or_ne k s with h | h
    · subst h
      simp [List.find?]
    · have hb : (s == k) = false := by simpa using Ne.symm h
      have hb2 : (k == s) = false := by simpa using h
      simp [List.find?, hb, hb2]
  · simp [hf]

/-- Looking up after incrementing key `s`: the entry for `s` grows by
one, all other keys are untouched. -/
theorem dictFind?_incrKey {K : Type} [BEq K] [LawfulBEq K] :
    ∀ (c : List (K × Nat)) (s k : K),
      dictFind? (incrKey c s) k
        = if k == s then (dictFind? c k).map (· + 1) else dictFind? c k := by
  intro c s k
  rcases hks : k == s with _ | _
  · have hne : k ≠ s := by simpa using hks
    simp only [Bool.false_eq_true, if_false]
    induction c with
    | nil => simp [incrKey, dictFind?]
    | cons p rest ih =>
      rcases hpk : p.1 == k with _ | _
      · have hps' : ((if (p.1 == s) = true then (p.1, p.2 + 1) else p).1 == k)
            = false := by
          split <;> simpa using hpk
        simp only [incrKey, List.map_cons, dictFind?, List.find?, hps',
          hpk] at ih ⊢
        exact ih
      · have hp1 : p.1 = k := by simpa using hpk
        have hps : (p.1 == s) = false := by
          simpa [hp1] using hne
        simp [incrKey, dictFind?, List.find?, hps, hpk]
  · have heq : k = s := by simpa using hks
    subst heq
    simp only [if_pos rfl]
    induction c with
    | nil => simp [incrKey, dictFind?]
    | cons p rest ih =>
      rcases hpk : p.1 == k with _ | _
      · simp only [incrKey, List.map_cons, dictFind?, List.find?, hpk,
          Bool.false_eq_true, if_false] at ih ⊢
        simpa [hpk] using ih
      · simp [incrKey, dictFind?, List.find?, hpk]

/-- Incrementing an absent key is the identity. -/
theorem incrKey_of_not_mem {K : Type} [BEq K] [LawfulBEq K] :
    ∀ (c : List (K × Nat)) (s : K), s ∉ keysOf c → incrKey c s = c := by
  intro c s h
  induction c with
  | nil => rfl
  | cons p rest ih =>
    simp only [keysOf, List.map_cons, List.mem_cons, not_or] at h
    have hb : (p.1 == s) = false := by simpa using Ne.symm h.1
    simp only [incrKey, List.map_cons, hb, Bool.false_eq_true, if_false]
    congr 1
    exact ih (by simpa [keysOf] using h.2)

/-- Incrementing preserves the key list. -/
theorem keysOf_incrKey {K : Type} [BEq K] :
    ∀ (c : List (K × Nat)) (s : K), keysOf (incrKey c s) = keysOf c := by
  intro c s
  induction c with
  | nil => rfl
  | cons p rest ih =>
    simp only [incrKey, keysOf, List.map_cons] at ih ⊢
    split <;> simp_all

/-- Sum of values after appending a fresh unit entry. -/
theorem sumValues_append_one {K : Type} (c : List (K × Nat)) (s : K) :
    sumValues (c ++ [(s, 1)]) = sumValues c + 1 := by
  simp [sumValues]

/-- Sum of values after incrementing a present key of a `Nodup` dict. -/
theorem sumValues_incrKey {K : Type} [BEq K] [LawfulBEq K] :
    ∀ (c : List (K × Nat)) (s : K), (keysOf c).Nodup → s ∈ keysOf c →
      sumValues (incrKey c s) = sumValues c + 1 := by
  intro c s
  induction c with
  | nil => intro _ hs; simp [keysOf] at hs
  | cons p rest ih =>
    intro hnd hs
    simp only [keysOf, List.map_cons, List.nodup_cons] at hnd
    rcases eq_or_ne p.1 s with hps | hps
    · have hnot : s ∉ keysOf rest := hps ▸ hnd.1
      have hb : (p.1 == s) = true := by simpa using hps
      rw [show incrKey (p :: rest) s = (p.1, p.2 + 1) :: incrKey rest s from by
        simp [incrKey, hb]]
      rw [incrKey_of_not_mem rest s hnot]
      simp only [sumValues, List.map_cons, List.sum_cons]
      omega
    · have hb : (p.1 == s) = false := by simpa using hps
      have hs2 : s ∈ keysOf rest := by
        rcases (by simpa [keysOf] using hs : s = p.1 ∨ s ∈ keysOf rest) with h | h
        · exact absurd h.symm hps
        · exact h
      rw [show incrKey (p :: rest) s = p :: incrKey rest s from by
        simp [incrKey, hb]]
      have := ih hnd.2 hs2
      simp only [sumValues, List.map_cons, List.sum_cons] at this ⊢
      omega

/-- Invariants of the rejection loop: on a successful return the counter
has `Nodup` keys, counts exactly the returned selection list, respects
every (positive) limit, and sums to exactly `n`. -/
theorem lrcLoop_ok_spec {K : Type} [BEq K] [LawfulBEq K] (a : List K)
    (n : Nat) (limits : List (K × Nat))
    (hl : ∀ k ∈ a, 1 ≤ dictGet limits k) :
    ∀ (fuel : Nat) (counter : List (K × Nat)) (result : List K) (miss : Nat)
      (st : RState) (res : List K) (cnt : List (K × Nat)) (ms : Nat)
      (st2 : RState),
      (keysOf counter).Nodup →
      (∀ k, dictGet counter k = result.count k) →
      (∀ k, dictGet counter k ≤ dictGet limits k) →
      sumValues counter ≤ n →
      lrcLoop a n limits fuel counter result miss st = (.ok res cnt ms, st2) →
      (keysOf cnt).Nodup ∧ (∀ k, dictGet cnt k = res.count k) ∧
      (∀ k, dictGet cnt k ≤ dictGet limits k) ∧ sumValues cnt = n := by
  intro fuel
  induction fuel with
  | zero =>
    intro counter result miss st res cnt ms st2 hnd hcount hbound hsum h
    rw [lrcLoop.eq_1] at h
    split at h
    · next hge => cases h; exact ⟨hnd, hcount, hbound, by omega⟩
    · simp at h
  | succ fuel ih =>
    intro counter result miss st res cnt ms st2 hnd hcount hbound hsum h
    cases a with
    | nil =>
      rw [lrcLoop.eq_2] at h
      split at h
      · next hge => cases h; exact ⟨hnd, hcount, hbound, by omega⟩
      · split at h <;> simp at h
    | cons x xs =>
      rw [lrcLoop.eq_3] at h
      split at h
      · next hge => cases h; exact ⟨hnd, hcount, hbound, by omega⟩
      · next hlt =>
        split at h
        · simp at h
        · dsimp only at h
          have hsmem : (x :: xs).get
              ⟨(draw st).1 % (x :: xs).length,
                Nat.mod_lt _ (Nat.succ_pos _)⟩ ∈ x :: xs :=
            List.get_mem _ _ _
          generalize hgen : (x :: xs).get
              ⟨(draw st).1 % (x :: xs).length,
                Nat.mod_lt _ (Nat.succ_pos _)⟩ = s at h hsmem
          have hlim1 : 1 ≤ dictGet limits s := hl s hsmem
          split at h
          · next hnone =>
            refine ih _ _ _ _ res cnt ms st2 ?_ ?_ ?_ ?_ h
            · rw [show keysOf (counter ++ [(s, 1)]) = keysOf counter ++ [s]
                from by simp [keysOf]]
              refine List.Nodup.append hnd (List.nodup_singleton s) ?_
              intro b hb hbs
              rw [List.mem_singleton] at hbs
              subst hbs
              exact not_mem_keysOf_of_dictFind?_eq_none hnone hb
            · intro k
              rw [dictGet_append_one, List.count_append]
              rcases eq_or_ne k s with hk | hk
              · subst hk
                have h0 : result.count k = 0 := by
                  have := hcount k
                  simpa [dictGet, hnone] using this.symm
                simp [hnone, h0]
              · have hbk : (s == k) = false := by simpa using Ne.symm hk
                have hbk2 : (k == s) = false := by simpa using hk
                rcases hfk : dictFind? counter k with _ | v
                · have h0 : result.count k = 0 := by
                    have := hcount k
                    simpa [dictGet, hfk] using this.symm
                  simp [hfk, h0, List.count_singleton, hbk, hbk2]
                · have := hcount k
                  simp [dictGet, hfk, List.count_singleton, hbk] at this ⊢
                  simpa [hfk] using this
            · intro k
              rw [dictGet_append_one]
              rcases hfk : dictFind? counter k with _ | v
              · rcases eq_or_ne k s with hk | hk
                · subst hk
                  simpa [hfk] using hlim1
                · have hbk2 : (k == s) = false := by simpa using hk
                  simp [hfk, hbk2]
              · simpa [hfk] using hbound k
            · rw [sumValues_append_one]
              omega
          · next c hsome =>
            split at h
            · simp at h
            · next lim hlim =>
              split at h
              · next hclim =>
                have hmemk : s ∈ keysOf counter :=
                  mem_keysOf_of_dictFind?_eq_some hsome
                refine ih _ _ _ _ res cnt ms st2 ?_ ?_ ?_ ?_ h
                · rw [keysOf_incrKey]; exact hnd
                · intro k
                  rw [List.count_append, dictGet, dictFind?_incrKey]
                  rcases eq_or_ne k s with hk | hk
                  · subst hk
                    have := hcount k
                    simp [dictGet, hsome] at this
                    simp [hsome, List.count_singleton, this]
                  · have hbk : (s == k) = false := by simpa using Ne.symm hk
                    have hbk2 : (k == s) = false := by simpa using hk
                    have := hcount k
                    simp [dictGet, List.count_singleton, hbk, hbk2] at this ⊢
                    exact this
                · intro k
                  rw [dictGet, dictFind?_incrKey]
                  rcases eq_or_ne k s with hk | hk
                  · subst hk
                    have : dictGet limits k = lim := by simp [dictGet, hlim]
                    simp [hsome, this]
                    omega
                  · have hbk2 : (k == s) = false := by simpa using hk
                    simpa [hbk2, dictGet] using hbound k
                · rw [sumValues_incrKey _ _ hnd hmemk]
                  omega
              · exact ih _ _ _ _ res cnt ms st2 hnd hcount hbound hsum h

/-- C4 (amended): whenever `limited_random_choice` returns a selection
and every pool key has a limit of at least 1, the per-key counts never
exceed the limits, they sum to exactly `n`, and the counter agrees with
the returned draw-ordered selection list.  The positivity hypothesis is
forced by `claim4_counterexample`: a key is accepted unconditionally on
its first draw, so a zero-limit pool key can be chosen once. -/
theorem claim4_sampler_correct {K : Type} [BEq K] [LawfulBEq K]
    (a : List K) (n : Nat) (limits : List (K × Nat)) (seed : Option Int)
    (threshold : Nat) (st : RState) (res : List K) (cnt : List (K × Nat))
    (ms : Nat) (st2 : RState)
    (hl : ∀ k ∈ a, 1 ≤ dictGet limits k) (hn : n ≤ sumValues limits)
    (h : limited_random_choice a n limits seed threshold st
          = (.ok res cnt ms, st2)) :
    (∀ k, dictGet cnt k ≤ dictGet limits k) ∧ sumValues cnt = n ∧
    (∀ k, dictGet cnt k = res.count k) := by
  unfold limited_random_choice at h
  rw [if_neg (by omega)] at h
  have := lrcLoop_ok_spec a n limits hl threshold [] [] 0
    (maybeSeed seed st) res cnt ms st2 (by simp [keysOf])
    (by intro k; simp [dictGet, dictFind?]) (by intro k; simp [dictGet, dictFind?])
    (by simp [sumValues]) h
  exact ⟨this.2.2.1, this.2.2.2, this.2.1⟩

/-- Witness for C4: pool `[0, 1]`, limits `{0: 2, 1: 1}`, `n = 2`, a
stream that draws 0 then 1; the counts respect the limits, sum to 2 and
match the selection `[0, 1]`. -/
theorem claim4_witness :
    dictGet [((0 : Nat), (1 : Nat)), (1, 1)] 0 ≤ dictGet [((0 : Nat), (2 : Nat)), (1, 1)] 0 ∧
    sumValues [((0 : Nat), (1 : Nat)), (1, 1)] = 2 ∧
    dictGet [((0 : Nat), (1 : Nat)), (1, 1)] 1 = [(0 : Nat), 1].count 1 := by
  have h := claim4_sampler_correct [0, 1] 2 [(0, 2), (1, 1)] none 10
    ⟨fun _ _ => 0, fun k => k, 0⟩ [0, 1] [(0, 1), (1, 1)] 0
    ⟨fun _ _ => 0, fun k => k, 2⟩ (by decide) (by decide) (by rfl)
  exact ⟨h.1 0, h.2.1, h.2.2 1⟩

/-- C4 counterexample: pool `[0, 1]` with limits `{0: 0, 1: 2}` and
`n = 2 ≤ 0 + 2`: the run returns the selection `[0, 1]` whose count for
key 0 is 1, exceeding its limit 0 — the first draw of a key skips the
limit check. -/
theorem claim4_counterexample :
    sumValues [((0 : Nat), (0 : Nat)), (1, 2)] = 2 ∧
    (limited_random_choice [0, 1] 2 [(0, 0), (1, 2)] none 10
        ⟨fun _ _ => 0, fun k => k, 0⟩).1
      = .ok [0, 1] [(0, 1), (1, 1)] 0 ∧
    ¬ (dictGet [((0 : Nat), (1 : Nat)), (1, 1)] 0
        ≤ dictGet [((0 : Nat), (0 : Nat)), (1, 2)] 0) :=
  ⟨by decide, by rfl, by decide⟩

/-- C3 counterexample: with budget 1 and `n = 1`, the first attempt
succeeds — the n-th success is collected within the budget — yet
`generate_networks` reports the exhausted signal, because `k == threshold`
is tested after the append; the identical run with budget 2 returns the
ensemble.  This refutes "if the n-th success is collected within the
budget the ensemble is returned". -/
theorem claim3_counterexample :
    (generate_networks [((0 : Nat), 1), (1, 1)] 1 none 1
        ⟨fun _ _ => 0, fun _ => 0, 0⟩).1 = .exhausted ∧
    (generate_networks [((0 : Nat), 1), (1, 1)] 1 none 2
        ⟨fun _ _ => 0, fun _ => 0, 0⟩).1 = .ok [[(1, 0)]] :=
  ⟨by rfl, by rfl⟩

/-! ### Claim C6: no self-loops -/

/-- Elements of a successful selection come from the initial partial
result or from the pool. -/
theorem lrcLoop_ok_subset {K : Type} [BEq K] (a : List K) (n : Nat)
    (limits : List (K × Nat)) :
    ∀ (fuel : Nat) (counter : List (K × Nat)) (result : List K) (miss : Nat)
      (st : RState) (res : List K) (cnt : List (K × Nat)) (ms : Nat)
      (st2 : RState),
      lrcLoop a n limits fuel counter result miss st = (.ok res cnt ms, st2) →
      ∀ y ∈ res, y ∈ result ∨ y ∈ a := by
  intro fuel
  induction fuel with
  | zero =>
    intro counter result miss st res cnt ms st2 h y hy
    rw [lrcLoop.eq_1] at h
    split at h
    · cases h; exact Or.inl hy
    · simp at h
  | succ fuel ih =>
    intro counter result miss st res cnt ms st2 h y hy
    cases a with
    | nil =>
      rw [lrcLoop.eq_2] at h
      split at h
      · cases h; exact Or.inl hy
      · split at h <;> simp at h
    | cons x xs =>
      rw [lrcLoop.eq_3] at h
      split at h
      · cases h; exact Or.inl hy
      · split at h
        · simp at h
        · dsimp only at h
          have hsmem : (x :: xs).get ⟨(draw st).1 % (x :: xs).length,
              Nat.mod_lt _ (Nat.succ_pos _)⟩ ∈ x :: xs := List.get_mem _ _ _
          generalize hgen : (x :: xs).get ⟨(draw st).1 % (x :: xs).length,
              Nat.mod_lt _ (Nat.succ_pos _)⟩ = s at h hsmem
          split at h
          · rcases ih _ _ _ _ _ _ _ _ h y hy with hmem | hmem
            · rcases List.mem_append.mp hmem with hm | hm
              · exact Or.inl hm
              · rw [List.mem_singleton] at hm
                exact Or.inr (hm ▸ hsmem)
            · exact Or.inr hmem
          · split at h
            · simp at h
            · split at h
              · rcases ih _ _ _ _ _ _ _ _ h y hy with hmem | hmem
                · rcases List.mem_append.mp hmem with hm | hm
                  · exact Or.inl hm
                  · rw [List.mem_singleton] at hm
                    exact Or.inr (hm ▸ hsmem)
                · exact Or.inr hmem
              · exact ih _ _ _ _ _ _ _ _ h y hy

/-- Elements of a selection returned by `limited_random_choice` come
from the pool. -/
theorem limited_random_choice_ok_subset {K : Type} [BEq K] (a : List K)
    (n : Nat) (limits : List (K × Nat)) (seed : Option Int) (threshold : Nat)
    (st : RState) (res : List K) (cnt : List (K × Nat)) (ms : Nat)
    (st2 : RState)
    (h : limited_random_choice a n limits seed threshold st
          = (.ok res cnt ms, st2)) :
    ∀ y ∈ res, y ∈ a := by
  unfold limited_random_choice at h
  split at h
  · simp at h
  · intro y hy
    rcases lrcLoop_ok_subset a n limits threshold [] [] 0 _ res cnt ms st2
        h y hy with hm | hm
    · simp at hm
    · exact hm

/-- Erasing key `k` from a dict with `Nodup` keys removes it from the
key list entirely. -/
theorem not_mem_keysOf_eraseP {K : Type} [BEq K] [LawfulBEq K] :
    ∀ (l : List (K × Nat)) (k : K), (keysOf l).Nodup →
      k ∉ keysOf (l.eraseP (fun p => p.1 == k)) := by
  intro l k
  induction l with
  | nil => intro _ h; simp [keysOf] at h
  | cons p rest ih =>
    intro hnd
    simp only [keysOf, List.map_cons, List.nodup_cons] at hnd
    by_cases hpk : p.1 = k
    · rw [@List.eraseP_cons_of_pos (K × Nat) p rest
        (fun q => q.1 == k) (by simpa using hpk)]
      exact fun hmem => hnd.1 (hpk ▸ hmem)
    · rw [@List.eraseP_cons_of_neg (K × Nat) p rest
        (fun q => q.1 == k) (by simpa using hpk)]
      intro hmem
      rcases (by simpa [keysOf] using hmem : k = p.1 ∨
          k ∈ keysOf (rest.eraseP (fun q => q.1 == k))) with h | h
      · exact hpk h.symm
      · exact ih hnd.2 h

/-- Decrementing preserves the key list. -/
theorem keysOf_decrKey {K : Type} [BEq K] :
    ∀ (c : List (K × Nat)) (s : K), keysOf (decrKey c s) = keysOf c := by
  intro c s
  induction c with
  | nil => rfl
  | cons p rest ih =>
    simp only [decrKey, keysOf, List.map_cons] at ih ⊢
    split <;> simp_all

/-- Keys are preserved by the per-selection decrements. -/
theorem keysOf_foldl_decrKey {K : Type} [BEq K] :
    ∀ (result : List K) (req : List (K × Nat)),
      keysOf (result.foldl (fun acc i => decrKey acc i) req) = keysOf req := by
  intro result
  induction result with
  | nil => intro req; rfl
  | cons i rest ih =>
    intro req
    rw [List.foldl_cons, ih, keysOf_decrKey]

/-- Core induction for C6: each round erases the hub from the pool
before sampling, so every appended edge pairs the hub with another
node. -/
theorem rewireLoop_no_self_loops {K : Type} [BEq K] [LawfulBEq K] :
    ∀ (fuel : Nat) (req : List (K × Nat)) (res : List (K × K))
      (seed : Option Int) (st : RState) (edges : List (K × K)) (st2 : RState),
      (keysOf req).Nodup → noSelfLoop res →
      rewireLoop fuel req res seed st = (.ok edges, st2) →
      noSelfLoop edges := by
  intro fuel
  induction fuel with
  | zero =>
    intro req res seed st edges st2 _ _ h
    rw [rewireLoop.eq_1] at h
    simp at h
  | succ fuel ih =>
    intro req res seed st edges st2 hnd hres h
    rw [rewireLoop.eq_2] at h
    split at h
    · cases h; exact hres
    · dsimp only at h
      have hnds : (keysOf ((sortByValue req).filter
          (fun p => decide (0 < p.2)))).Nodup := by
        have hperm : List.Perm (keysOf req) (keysOf (sortByValue req)) :=
          (List.Perm.map _ (List.perm_insertionSort _ req)).symm
        have hnds0 : (keysOf (sortByValue req)).Nodup := hperm.nodup hnd
        exact (List.Sublist.map _ (List.filter_sublist _)).nodup hnds0
      split at h
      · simp at h
      · next q0 q1 hlast =>
        have hnotq0 : q0 ∉ keysOf (((sortByValue req).filter
            (fun p => decide (0 < p.2))).eraseP (fun p => p.1 == q0)) :=
          not_mem_keysOf_eraseP _ q0 hnds
        have hndq : (keysOf (((sortByValue req).filter
            (fun p => decide (0 < p.2))).eraseP (fun p => p.1 == q0))).Nodup :=
          (List.Sublist.map _ (List.eraseP_sublist _)).nodup hnds
        split at h
        · simp at h
        · simp at h
        · exact ih _ _ _ _ _ _ hndq hres h
        · next result counter miss st3 hlrc =>
          refine ih _ _ _ _ _ _ ?_ ?_ h
          · rw [keysOf_foldl_decrKey]; exact hndq
          · intro e he
            rcases List.mem_append.mp he with hm | hm
            · exact hres e hm
            · obtain ⟨i, hi, hie⟩ := List.exists_of_mem_map hm
              subst hie
              have hipool : i ∈ keysOf (((sortByValue req).filter
                  (fun p => decide (0 < p.2))).eraseP (fun p => p.1 == q0)) :=
                limited_random_choice_ok_subset _ _ _ _ _ _ _ _ _ _ hlrc i hi
              intro hcontra
              rw [show ((q0, i).1 = (q0, i).2) = (q0 = i) from rfl] at hcontra
              rw [← hcontra] at hipool
              exact hnotq0 hipool

/-- C6: for every degree sequence (a dict, hence `Nodup` keys), every
seed, threshold and stream state, every edge of an instance returned by
`rewire_network` joins two distinct nodes, because the round hub is
popped from `req` before the candidate pool is formed. -/
theorem claim6_no_self_loops {K : Type} [BEq K] [LawfulBEq K]
    (g : List (K × Nat)) (seed : Option Int) (threshold : Nat)
    (st : RState) (edges : List (K × K)) (st2 : RState)
    (hnd : (keysOf g).Nodup)
    (h : rewire_network g seed threshold st = (.ok edges, st2)) :
    noSelfLoop edges := by
  unfold rewire_network at h
  refine rewireLoop_no_self_loops _ _ _ _ _ _ _ ?_ ?_ h
  · exact (List.Sublist.map _ (List.filter_sublist _)).nodup hnd
  · intro e he; simp at he

/-- Witness for C6: the degree sequence `{0: 1, 1: 1}` yields the
instance `[(1, 0)]`, whose single edge has distinct endpoints. -/
theorem claim6_witness :
    (keysOf [((0 : Nat), (1 : Nat)), (1, 1)]).Nodup ∧
    rewire_network [((0 : Nat), 1), (1, 1)] none 10000
        ⟨fun _ _ => 0, fun _ => 0, 0⟩
      = (.ok [(1, 0)], ⟨fun _ _ => 0, fun _ => 0, 1⟩) ∧
    ((1 : Nat), (0 : Nat)).1 ≠ ((1 : Nat), (0 : Nat)).2 := by
  refine ⟨by decide, by rfl, ?_⟩
  exact claim6_no_self_loops [((0 : Nat), 1), (1, 1)] none 10000
    ⟨fun _ _ => 0, fun _ => 0, 0⟩ [(1, 0)] ⟨fun _ _ => 0, fun _ => 0, 1⟩
    (by decide) (by rfl) (1, 0) (List.mem_singleton.mpr rfl)

/-! ### Claims C1 and C2: behaviour on sampler exhaustion

The scenario: degree sequence `{0: 1, 1: 1, 2: 2}` with a raw stream
that is constantly 0.  Round 1 pops hub 2 (degree 2) and asks the
sampler for two stubs from the pool `[0, 1]` with limits `{0: 1, 1: 1}`;
the constant stream draws key 0 forever, so after accepting it once
every further draw misses and the sampler reaches its million-draw
threshold and returns `None`.  `rewire_network` then *continues* with
hub 2 dropped, matches 1 with 0 in round 2 and returns the edge list
`[(1, 0)]`, silently losing both stubs of node 2. -/

/-- Once key 0 is saturated, a constant-0 stream misses forever: the
rejection loop burns its remaining fuel and reports exhaustion. -/
theorem lrc_missForever (fn : Int → Nat → Nat) :
    ∀ (f p m : Nat),
      lrcLoop [0, 1] 2 [(0, 1), (1, 1)] (f + 1) [(0, 1)] [0] m ⟨fn, fun _ => 0, p⟩
        = (.exhausted, ⟨fn, fun _ => 0, p + f⟩) := by
  intro f
  induction f with
  | zero => intro p m; rfl
  | succ f ih =>
    intro p m
    rw [show f + 1 + 1 = (f + 1) + 1 from rfl]
    rw [lrcLoop.eq_3]
    have h2 : ¬ (2 ≤ sumValues [((0 : Nat), (1 : Nat))]) := by decide
    simp only [if_neg h2, Nat.succ_ne_zero, if_false]
    have := ih (p + 1) (m + 1)
    simpa [Nat.add_assoc, Nat.add_comm 1 f] using this

/-- The first-round sampler call of the scenario: accept key 0 once,
then miss 999,998 times and give up one draw short of the threshold. -/
theorem lrc_round1_exhausted (fn : Int → Nat → Nat) :
    limited_random_choice [0, 1] 2 [(0, 1), (1, 1)] none 1000000
        ⟨fn, fun _ => 0, 0⟩
      = (.exhausted, ⟨fn, fun _ => 0, 999999⟩) := by
  unfold limited_random_choice
  have hs : ¬ (sumValues [((0 : Nat), (1 : Nat)), (1, 1)] < 2) := by decide
  rw [if_neg hs]
  simp only [maybeSeed]
  rw [show (1000000 : Nat) = (999998 + 1) + 1 by norm_num]
  rw [lrcLoop.eq_3]
  have h2 : ¬ (2 ≤ sumValues ([] : List (Nat × Nat))) := by decide
  simp only [if_neg h2, Nat.succ_ne_zero, if_false]
  have := lrc_missForever fn 999998 1 0
  simpa using this

set_option maxRecDepth 8192 in
/-- Round 2 of the scenario: hub 1 matched with node 0; evaluated for an
arbitrary stream position, since round 1 left the position deep in the
stream. -/
theorem rewire_round2 (fn : Int → Nat → Nat) (p : Nat) :
    rewireLoop 3 [(0, 1), (1, 1)] [] none ⟨fn, fun _ => 0, p⟩
      = (.ok [((1 : Nat), (0 : Nat))], ⟨fn, fun _ => 0, p + 1⟩) := by rfl

/-- Round 1 of the scenario, with the sampler outcome supplied as a
hypothesis: the hub's round is skipped and the loop continues. -/
theorem rewire_round1_gen (st out : RState)
    (h : limited_random_choice [0, 1] 2 [(0, 1), (1, 1)] none 1000000 st
          = (.exhausted, out)) :
    rewireLoop 4 [(0, 1), (1, 1), (2, 2)] [] none st
      = rewireLoop 3 [(0, 1), (1, 1)] [] none out := by
  rw [show (4 : Nat) = 3 + 1 from rfl, rewireLoop.eq_2]
  rw [if_neg (by decide : ¬ (List.filter (fun p => decide (0 < p.2))
        [((0 : Nat), (1 : Nat)), (1, 1), (2, 2)]).isEmpty = true)]
  simp only [show (sortByValue [((0 : Nat), (1 : Nat)), (1, 1), (2, 2)]).filter
      (fun p => decide (0 < p.2)) = [(0, 1), (1, 1), (2, 2)] from rfl]
  simp only [show [((0 : Nat), (1 : Nat)), (1, 1), (2, 2)].getLast?
      = some (2, 2) from rfl]
  simp only [show List.eraseP (fun p => p.1 == 2)
      [((0 : Nat), (1 : Nat)), (1, 1), (2, 2)] = [(0, 1), (1, 1)] from rfl]
  simp only [show keysOf [((0 : Nat), (1 : Nat)), (1, 1)] = [0, 1] from rfl]
  rw [h]

set_option maxRecDepth 8192 in
/-- Full evaluation of the scenario: `rewire_network` returns the edge
list `[(1, 0)]` after silently dropping hub 2's round. -/
theorem rewire_c1scenario (fn : Int → Nat → Nat) :
    rewire_network [(0, 1), (1, 1), (2, 2)] none 10000 ⟨fn, fun _ => 0, 0⟩
      = (.ok [((1 : Nat), (0 : Nat))], ⟨fn, fun _ => 0, 1000000⟩) := by
  unfold rewire_network
  simp only [show List.filter (fun p => decide (0 < p.2))
      [((0 : Nat), (1 : Nat)), (1, 1), (2, 2)] = [(0, 1), (1, 1), (2, 2)]
    from rfl]
  rw [show ([((0 : Nat), (1 : Nat)), (1, 1), (2, 2)].length + 1) = 4 from rfl]
  rw [rewire_round1_gen _ _ (lrc_round1_exhausted fn), rewire_round2 fn]

/-- C1 (code bug): on the degree sequence `{0: 1, 1: 1, 2: 2}` with a
constant-0 stream, `rewire_network` returns the edge list `[(1, 0)]` —
a list, not the NaN failure value — although the degree of node 2
recomputed from the instance is 0 while its input degree is 2.  Degree
preservation fails because a `SamplingExhausted` round is skipped with
`continue` instead of aborting the instance. -/
theorem claim1_degree_preservation_violated :
    (rewire_network [((0 : Nat), 1), (1, 1), (2, 2)] none 10000
        ⟨fun _ _ => 0, fun _ => 0, 0⟩).1 = .ok [(1, 0)] ∧
    degreeOf [((1 : Nat), (0 : Nat))] 2 = 0 ∧
    dictGet [((0 : Nat), (1 : Nat)), (1, 1), (2, 2)] 2 = 2 := by
  refine ⟨?_, by decide, by decide⟩
  rw [rewire_c1scenario (fun _ _ => 0)]

/-- C2 (code bug): in the same scenario the first-round sampler call
returns the exhausted outcome, yet `rewire_network` neither aborts with
the NaN failure value nor stops matching: it continues and returns an
edge list. -/
theorem claim2_exhausted_not_aborted :
    limited_random_choice [(0 : Nat), 1] 2 [(0, 1), (1, 1)] none 1000000
        ⟨fun _ _ => 0, fun _ => 0, 0⟩
      = (.exhausted, ⟨fun _ _ => 0, fun _ => 0, 999999⟩) ∧
    (rewire_network [((0 : Nat), 1), (1, 1), (2, 2)] none 10000
        ⟨fun _ _ => 0, fun _ => 0, 0⟩).1 ≠ .nan ∧
    (rewire_network [((0 : Nat), 1), (1, 1), (2, 2)] none 10000
        ⟨fun _ _ => 0, fun _ => 0, 0⟩).1 = .ok [(1, 0)] := by
  refine ⟨lrc_round1_exhausted _, ?_, ?_⟩
  · rw [rewire_c1scenario (fun _ _ => 0)]
    simp
  · rw [rewire_c1scenario (fun _ _ => 0)]

/-! ### Claim C8: GraphCodec round-trip -/

/-- Adding rows whose keys collide with nothing already present and are
pairwise non-colliding just appends them. -/
theorem foldl_addWeightedEdge_of_no_collision {K : Type} [DecidableEq K] :
    ∀ (rows : List ((K × K) × Nat)) (g : List ((K × K) × Nat)),
      (∀ r ∈ rows, ∀ p ∈ g, sameUndir p.1 r.1 = false) →
      List.Pairwise (fun r1 r2 => sameUndir r1.1 r2.1 = false) rows →
      rows.foldl (fun acc row => addWeightedEdge acc row.1 row.2) g
        = g ++ rows := by
  intro rows
  induction rows with
  | nil => intro g _ _; simp
  | cons row rest ih =>
    intro g hg hpw
    rw [List.foldl_cons]
    have hany : g.any (fun p => sameUndir p.1 row.1) = false := by
      rw [List.any_eq_false]
      intro p hp
      simp [hg row (List.mem_cons_self _ _) p hp]
    rw [show addWeightedEdge g row.1 row.2 = g ++ [row] from by
      simp [addWeightedEdge, hany]]
    rw [ih (g ++ [row]) ?_ (List.Pairwise.sublist (List.sublist_cons_self _ _) hpw)]
    · simp
    · intro r hr p hp
      rcases List.mem_append.mp hp with hpg | hpr
      · exact hg r (List.mem_cons_of_mem _ hr) p hpg
      · rw [List.mem_singleton] at hpr
        subst hpr
        exact (List.pairwise_cons.mp hpw).1 r hr

/-- When no unordered pair occurs in both orientations, the grouped rows
never collide, so the built graph is exactly the row list. -/
theorem convert_to_graph_of_one_orientation {K : Type} [LinearOrder K]
    (el : List (K × K))
    (hor : ∀ a b : K, (a, b) ∈ el → (b, a) ∈ el → a = b) :
    convert_to_graph el = groupRows el := by
  have hnd : (List.insertionSort pairLex el.dedup).Nodup :=
    (List.perm_insertionSort pairLex el.dedup).symm.nodup (List.nodup_dedup el)
  have hpw : List.Pairwise
      (fun r1 r2 : (K × K) × Nat => sameUndir r1.1 r2.1 = false)
      (groupRows el) := by
    unfold groupRows
    rw [List.pairwise_map]
    have hne : List.Pairwise (fun e1 e2 : K × K => e1 ≠ e2)
        (List.insertionSort pairLex el.dedup) := hnd
    refine hne.imp_of_mem ?_
    intro e1 e2 h1 h2 hne12
    have hm1 : e1 ∈ el := by
      have := (List.perm_insertionSort pairLex el.dedup).mem_iff.mp h1
      exact List.mem_dedup.mp this
    have hm2 : e2 ∈ el := by
      have := (List.perm_insertionSort pairLex el.dedup).mem_iff.mp h2
      exact List.mem_dedup.mp this
    rcases hsu : sameUndir e1 e2 with _ | _
    · rfl
    · exfalso
      rcases (by simpa [sameUndir] using hsu :
          (e1.1 = e2.1 ∧ e1.2 = e2.2) ∨ (e1.1 = e2.2 ∧ e1.2 = e2.1)) with
        ⟨ha, hb⟩ | ⟨ha, hb⟩
      · exact hne12 (Prod.ext ha hb)
      · have h1el : (e1.1, e1.2) ∈ el := by simpa using hm1
        have h2el : (e1.2, e1.1) ∈ el := by
          have : e2 = (e1.2, e1.1) := Prod.ext hb.symm ha.symm
          simpa [this] using hm2
        have heq : e1.1 = e1.2 := hor _ _ h1el h2el
        apply hne12
        apply Prod.ext
        · rw [← hb]; exact heq
        · rw [← ha]; exact heq.symm
  unfold convert_to_graph
  rw [foldl_addWeightedEdge_of_no_collision (groupRows el) [] (by simp) hpw]
  simp

/-- Counting inside the expansion of distinct keys into replicated
blocks. -/
theorem count_flatten_replicate {K : Type} [DecidableEq K] (el : List (K × K)) :
    ∀ (L : List (K × K)), L.Nodup → ∀ x : K × K,
      ((L.map (fun e => List.replicate (el.count e) e)).flatten).count x
        = if x ∈ L then el.count x else 0 := by
  intro L
  induction L with
  | nil => intro _ x; simp
  | cons e rest ih =>
    intro hnd x
    rw [List.nodup_cons] at hnd
    rw [List.map_cons, List.flatten_cons, List.count_append,
      List.count_replicate, ih hnd.2 x]
    rcases eq_or_ne x e with hx | hx
    · subst hx
      simp [hnd.1]
    · have hb : (e == x) = false := by simpa using Ne.symm hx
      simp [hb, hx, List.mem_cons]

/-- Under the one-orientation hypothesis the round-trip preserves the
count of every ordered pair. -/
theorem count_roundtrip {K : Type} [LinearOrder K] (el : List (K × K))
    (hor : ∀ a b : K, (a, b) ∈ el → (b, a) ∈ el → a = b) (x : K × K) :
    (convert_weighted_to_multigraph (convert_to_graph el)).count x
      = el.count x := by
  rw [convert_to_graph_of_one_orientation el hor]
  unfold convert_weighted_to_multigraph groupRows
  rw [List.map_map]
  have hcomp : ((fun p : (K × K) × Nat => List.replicate p.2 p.1) ∘
      (fun e : K × K => (e, el.count e)))
      = fun e : K × K => List.replicate (el.count e) e := rfl
  rw [hcomp]
  have hnd : (List.insertionSort pairLex el.dedup).Nodup :=
    (List.perm_insertionSort pairLex el.dedup).symm.nodup (List.nodup_dedup el)
  rw [count_flatten_replicate el _ hnd x]
  split
  · rfl
  · next hx =>
    symm
    rw [List.count_eq_zero]
    intro hmem
    exact hx ((List.perm_insertionSort pairLex el.dedup).mem_iff.mpr
      (List.mem_dedup.mpr hmem))

/-- C8 (amended): for every edge list in which no unordered pair occurs
in both orientations, converting to a weighted simple graph and
expanding back to a multigraph preserves the edge multiset (stated per
undirected pair, i.e. up to endpoint order; in fact even the ordered
counts coincide).  The hypothesis is forced by `claim8_counterexample`:
pandas groups by the *ordered* pair and networkx `add_edge` overwrites
the weight when the opposite orientation arrives, losing multiplicity. -/
theorem claim8_roundtrip {K : Type} [LinearOrder K] (el : List (K × K))
    (hor : ∀ a b : K, (a, b) ∈ el → (b, a) ∈ el → a = b) (a b : K) :
    undirCount (convert_weighted_to_multigraph (convert_to_graph el)) a b
      = undirCount el a b := by
  unfold undirCount
  rw [count_roundtrip el hor, count_roundtrip el hor]

/-- Witness for C8: the edge list `[(0, 1), (0, 1), (1, 2)]` (a parallel
pair and a further edge, all in one orientation) round-trips with the
multiplicity of `{0, 1}` preserved. -/
theorem claim8_witness :
    undirCount (convert_weighted_to_multigraph (convert_to_graph
        [((0 : Nat), 1), (0, 1), (1, 2)])) 0 1
      = undirCount [((0 : Nat), 1), (0, 1), (1, 2)] 0 1 := by
  have hor : ∀ a b : Nat, (a, b) ∈ [((0 : Nat), 1), (0, 1), (1, 2)] →
      (b, a) ∈ [((0 : Nat), 1), (0, 1), (1, 2)] → a = b := by
    intro a b ha hb
    simp only [List.mem_cons, List.not_mem_nil, or_false, Prod.mk.injEq] at ha hb
    omega
  exact claim8_roundtrip [((0 : Nat), 1), (0, 1), (1, 2)] hor 0 1

/-- C8 counterexample: the edge list `[(0, 1), (1, 0)]` contains the
undirected pair `{0, 1}` twice, once per orientation; the round-trip
returns it only once, so the claim fails for general edge lists. -/
theorem claim8_counterexample :
    undirCount [((0 : Nat), 1), (1, 0)] 0 1 = 2 ∧
    undirCount (convert_weighted_to_multigraph (convert_to_graph
        [((0 : Nat), 1), (1, 0)])) 0 1 = 1 :=
  ⟨by decide, by decide⟩

/-! ### Claim C9: the caller's dict is never mutated -/

/-- Reading back a freshly allocated cell. -/
theorem halloc_cells_self {K : Type} (h : Heap K) (v : List (K × Nat)) :
    ((halloc h v).2).cells (halloc h v).1 = v := by
  simp [halloc]

/-- Allocation leaves every previously allocated cell unchanged. -/
theorem halloc_cells_lt {K : Type} (h : Heap K) (v : List (K × Nat))
    (r : Nat) (hr : r < h.next) : ((halloc h v).2).cells r = h.cells r := by
  simp only [halloc]
  rw [if_neg (by omega)]

/-- Allocation bumps the allocation frontier by one. -/
theorem halloc_next {K : Type} (h : Heap K) (v : List (K × Nat)) :
    ((halloc h v).2).next = h.next + 1 := rfl

/-- The returned reference of an allocation is the old frontier. -/
theorem halloc_fst {K : Type} (h : Heap K) (v : List (K × Nat)) :
    (halloc h v).1 = h.next := rfl

/-- Reading back a written cell. -/
theorem hwrite_cells_self {K : Type} (h : Heap K) (q : Nat)
    (v : List (K × Nat)) : (hwrite h q v).cells q = v := by
  simp [hwrite]

/-- Writing one cell leaves the others unchanged. -/
theorem hwrite_cells_ne {K : Type} (h : Heap K) (q : Nat) (v : List (K × Nat))
    (r : Nat) (hr : r ≠ q) : (hwrite h q v).cells r = h.cells r := by
  simp only [hwrite]
  rw [if_neg hr]

/-- Writing does not move the allocation frontier. -/
theorem hwrite_next {K : Type} (h : Heap K) (q : Nat) (v : List (K × Nat)) :
    (hwrite h q v).next = h.next := rfl

/-- The in-place decrement loop `for i in iter: req[i] -= 1` writes only
the cell `r3` and matches the functional fold, cell by cell. -/
theorem foldl_hwrite_decr {K : Type} [BEq K] :
    ∀ (result : List K) (h : Heap K) (r3 : Nat),
      (∀ r, r ≠ r3 →
        ((result.foldl (fun hh i => hwrite hh r3 (decrKey (hh.cells r3) i)) h).cells r
          = h.cells r)) ∧
      ((result.foldl (fun hh i => hwrite hh r3 (decrKey (hh.cells r3) i)) h).cells r3
        = result.foldl (fun acc i => decrKey acc i) (h.cells r3)) ∧
      ((result.foldl (fun hh i => hwrite hh r3 (decrKey (hh.cells r3) i)) h).next
        = h.next) := by
  intro result
  induction result with
  | nil => intro h r3; exact ⟨fun _ _ => rfl, rfl, rfl⟩
  | cons i rest ih =>
    intro h r3
    rw [List.foldl_cons, List.foldl_cons]
    obtain ⟨ihne, ihself, ihnext⟩ :=
      ih (hwrite h r3 (decrKey (h.cells r3) i)) r3
    refine ⟨?_, ?_, ?_⟩
    · intro r hr
      rw [ihne r hr, hwrite_cells_ne _ _ _ _ hr]
    · rw [ihself, hwrite_cells_self]
    · rw [ihnext, hwrite_next]

/-- The heap-level rewiring loop only grows the heap and never touches a
cell that was allocated before the call. -/
theorem rewireLoopH_frame {K : Type} [BEq K] :
    ∀ (fuel ref : Nat) (h : Heap K) (res : List (K × K)) (seed : Option Int)
      (st : RState) (out : RewireResult K) (h2 : Heap K) (st2 : RState),
      rewireLoopH fuel ref h res seed st = (out, h2, st2) →
      h.next ≤ h2.next ∧ ∀ r, r < h.next → h2.cells r = h.cells r := by
  intro fuel
  induction fuel with
  | zero =>
    intro ref h res seed st out h2 st2 heq
    rw [rewireLoopH.eq_1] at heq
    cases heq
    exact ⟨Nat.le_refl _, fun _ _ => rfl⟩
  | succ fuel ih =>
    intro ref h res seed st out h2 st2 heq
    rw [rewireLoopH.eq_2] at heq
    split at heq
    · cases heq; exact ⟨Nat.le_refl _, fun _ _ => rfl⟩
    · dsimp only at heq
      split at heq
      · cases heq
        constructor
        · simp only [halloc]
          omega
        · intro r hr
          simp only [halloc]
          rw [if_neg (by omega),
            if_neg (by omega)]
      · split at heq
        · cases heq
          constructor
          · simp only [halloc, hwrite]
            omega
          · intro r hr
            simp only [halloc, hwrite]
            rw [if_neg (by omega),
              if_neg (by omega),
              if_neg (by omega),
              if_neg (by omega)]
        · cases heq
          constructor
          · simp only [halloc, hwrite]
            omega
          · intro r hr
            simp only [halloc, hwrite]
            rw [if_neg (by omega),
              if_neg (by omega),
              if_neg (by omega),
              if_neg (by omega)]
        · obtain ⟨ihnext, ihcells⟩ := ih _ _ _ _ _ _ _ _ heq
          constructor
          · refine Nat.le_trans ?_ ihnext
            simp only [halloc, hwrite]
            omega
          · intro r hr
            rw [ihcells r (by simp only [halloc, hwrite]; omega)]
            simp only [halloc, hwrite]
            rw [if_neg (by omega),
              if_neg (by omega),
              if_neg (by omega),
              if_neg (by omega)]
        · next result counter miss st3 heq2 =>
          obtain ⟨ihnext, ihcells⟩ := ih _ _ _ _ _ _ _ _ heq
          obtain ⟨fne, _, fnext⟩ := foldl_hwrite_decr result _ _
          constructor
          · refine Nat.le_trans ?_ ihnext
            rw [fnext]
            simp only [halloc, hwrite]
            omega
          · intro r hr
            rw [ihcells r (by rw [fnext]; simp only [halloc, hwrite]; omega)]
            rw [fne r (by simp only [halloc, hwrite]; omega)]
            simp only [halloc, hwrite]
            rw [if_neg (by omega),
              if_neg (by omega),
              if_neg (by omega),
              if_neg (by omega)]

/-- `rewire_networkH` only grows the heap and never touches a cell
allocated before the call. -/
theorem rewire_networkH_frame {K : Type} [BEq K] (h : Heap K) (gref : Nat)
    (seed : Option Int) (threshold : Nat) (st : RState)
    (out : RewireResult K) (h2 : Heap K) (st2 : RState)
    (heq : rewire_networkH h gref seed threshold st = (out, h2, st2)) :
    h.next ≤ h2.next ∧ ∀ r, r < h.next → h2.cells r = h.cells r := by
  unfold rewire_networkH at heq
  simp only [halloc] at heq
  obtain ⟨hnext, hcells⟩ := rewireLoopH_frame _ _ _ _ _ _ _ _ _ heq
  constructor
  · exact Nat.le_trans (Nat.le_succ _) hnext
  · intro r hr
    rw [hcells r (show r < h.next + 1 by omega)]
    dsimp only
    rw [if_neg (by omega)]

/-- The heap-level ensemble loop only grows the heap and never touches a
cell allocated before the call. -/
theorem genLoopH_frame {K : Type} [BEq K] (gref : Nat) (n : Nat) :
    ∀ (fuel : Nat) (results : List (List (K × K))) (h : Heap K) (st : RState)
      (out : GenResult K) (h2 : Heap K) (st2 : RState),
      genLoopH gref n fuel results h st = (out, h2, st2) →
      h.next ≤ h2.next ∧ ∀ r, r < h.next → h2.cells r = h.cells r := by
  intro fuel
  induction fuel with
  | zero =>
    intro results h st out h2 st2 heq
    rw [genLoopH.eq_1] at heq
    split at heq <;> (cases heq; exact ⟨Nat.le_refl _, fun _ _ => rfl⟩)
  | succ f ih =>
    intro results h st out h2 st2 heq
    rw [genLoopH.eq_2] at heq
    split at heq
    · cases heq; exact ⟨Nat.le_refl _, fun _ _ => rfl⟩
    · split at heq
      · next heq2 =>
        obtain ⟨hn, hc⟩ := rewire_networkH_frame _ _ _ _ _ _ _ _ heq2
        cases heq
        exact ⟨hn, hc⟩
      · next heq2 =>
        obtain ⟨hn, hc⟩ := rewire_networkH_frame _ _ _ _ _ _ _ _ heq2
        cases heq
        exact ⟨hn, hc⟩
      · next heq2 =>
        obtain ⟨hn, hc⟩ := rewire_networkH_frame _ _ _ _ _ _ _ _ heq2
        split at heq
        · cases heq; exact ⟨hn, hc⟩
        · obtain ⟨ihn, ihc⟩ := ih _ _ _ _ _ _ heq
          refine ⟨Nat.le_trans hn ihn, fun r hr => ?_⟩
          rw [ihc r (by omega), hc r hr]
      · next heq2 =>
        obtain ⟨hn, hc⟩ := rewire_networkH_frame _ _ _ _ _ _ _ _ heq2
        split at heq
        · cases heq; exact ⟨hn, hc⟩
        · obtain ⟨ihn, ihc⟩ := ih _ _ _ _ _ _ heq
          refine ⟨Nat.le_trans hn ihn, fun r hr => ?_⟩
          rw [ihc r (by omega), hc r hr]

/-- C9: for every allocated caller dict (`gref < h.next`), both
`rewire_network` and `generate_networks` leave the caller's
degree-sequence cell unchanged, whatever the outcome: the in-place
stub decrements hit only the freshly allocated internal copies. -/
theorem claim9_caller_dict_unchanged {K : Type} [BEq K] (h : Heap K)
    (gref : Nat) (seed : Option Int) (threshold : Nat) (st : RState)
    (n ilt : Nat) (hg : gref < h.next) :
    ((rewire_networkH h gref seed threshold st).2.1).cells gref
        = h.cells gref ∧
    ((generate_networksH h gref n seed ilt st).2.1).cells gref
        = h.cells gref := by
  constructor
  · obtain ⟨_, hc⟩ := rewire_networkH_frame h gref seed threshold st
      (rewire_networkH h gref seed threshold st).1
      (rewire_networkH h gref seed threshold st).2.1
      (rewire_networkH h gref seed threshold st).2.2 rfl
    exact hc gref hg
  · obtain ⟨_, hc⟩ := genLoopH_frame gref n ilt [] h (maybeSeed seed st)
      (generate_networksH h gref n seed ilt st).1
      (generate_networksH h gref n seed ilt st).2.1
      (generate_networksH h gref n seed ilt st).2.2 rfl
    exact hc gref hg

/-- Witness for C9: a one-cell heap holding the dict `{0: 1, 1: 1}` at
reference 0; the cell is unchanged by both calls. -/
theorem claim9_witness :
    ((rewire_networkH
        ⟨fun r => if r = 0 then [((0 : Nat), 1), (1, 1)] else [], 1⟩ 0 none
        10000 ⟨fun _ _ => 0, fun _ => 0, 0⟩).2.1).cells 0
      = (⟨fun r => if r = 0 then [((0 : Nat), 1), (1, 1)] else [], 1⟩ :
          Heap Nat).cells 0 ∧
    ((generate_networksH
        ⟨fun r => if r = 0 then [((0 : Nat), 1), (1, 1)] else [], 1⟩ 0 1 none
        10 ⟨fun _ _ => 0, fun _ => 0, 0⟩).2.1).cells 0
      = (⟨fun r => if r = 0 then [((0 : Nat), 1), (1, 1)] else [], 1⟩ :
          Heap Nat).cells 0 :=
  claim9_caller_dict_unchanged _ 0 none 10000 _ 1 10 (by decide)

/-! ### Correspondence of the heap model with the functional embedding

The heap-level functions are the same algorithm as the functional ones:
outcome and stream state coincide when the loop is run on the contents
of the `req` cell.  This ties the frame claim to the main embedding. -/

/-- Reading the written cell after the in-place decrement loop gives the
functional fold. -/
theorem foldl_hwrite_decr_self {K : Type} [BEq K] (result : List K)
    (h : Heap K) (r3 : Nat) :
    ((result.foldl (fun hh i => hwrite hh r3 (decrKey (hh.cells r3) i)) h).cells r3)
      = result.foldl (fun acc i => decrKey acc i) (h.cells r3) :=
  (foldl_hwrite_decr result h r3).2.1

/-- The heap-level rewiring loop computes the same outcome and stream
state as the functional loop run on the contents of its cell. -/
theorem rewireLoopH_eq_rewireLoop {K : Type} [BEq K] :
    ∀ (fuel ref : Nat) (h : Heap K) (res : List (K × K)) (seed : Option Int)
      (st : RState) (out : RewireResult K) (h2 : Heap K) (st2 : RState),
      rewireLoopH fuel ref h res seed st = (out, h2, st2) →
      rewireLoop fuel (h.cells ref) res seed st = (out, st2) := by
  intro fuel
  induction fuel with
  | zero =>
    intro ref h res seed st out h2 st2 heq
    rw [rewireLoopH.eq_1] at heq
    cases heq
    rfl
  | succ fuel ih =>
    intro ref h res seed st out h2 st2 heq
    rw [rewireLoopH.eq_2] at heq
    rw [rewireLoop.eq_2]
    split at heq
    · next hc => cases heq; rw [if_pos hc]
    · next hc =>
      rw [if_neg hc]
      dsimp only at heq ⊢
      simp only [halloc_cells_self, hwrite_cells_self] at heq
      split at heq
      · next hlast =>
        cases heq
        rfl
      · next q0 q1 hlast =>
        split at heq
        · next hlrc => cases heq; rfl
        · next hlrc => cases heq; rfl
        · next hlrc =>
          have hrec := ih _ _ _ _ _ _ _ _ heq
          simpa only [halloc_cells_self, hwrite_cells_self] using hrec
        · next result counter miss st3 hlrc =>
          have hrec := ih _ _ _ _ _ _ _ _ heq
          rw [foldl_hwrite_decr_self] at hrec
          simpa only [halloc_cells_self, hwrite_cells_self] using hrec

/-- `rewire_networkH` computes the same outcome and stream state as
`rewire_network` applied to the contents of the caller's cell. -/
theorem rewire_networkH_eq {K : Type} [BEq K] (h : Heap K) (gref : Nat)
    (seed : Option Int) (threshold : Nat) (st : RState)
    (out : RewireResult K) (h2 : Heap K) (st2 : RState)
    (heq : rewire_networkH h gref seed threshold st = (out, h2, st2)) :
    rewire_network (h.cells gref) seed threshold st = (out, st2) := by
  unfold rewire_networkH at heq
  unfold rewire_network
  have hrec := rewireLoopH_eq_rewireLoop _ _ _ _ _ _ _ _ _ heq
  simpa only [halloc_cells_self] using hrec

/-- The heap-level ensemble loop computes the same outcome and stream
state as the functional one, when the caller's reference is allocated. -/
theorem genLoopH_eq_genLoop {K : Type} [BEq K] (gref : Nat) (n : Nat) :
    ∀ (fuel : Nat) (results : List (List (K × K))) (h : Heap K) (st : RState)
      (out : GenResult K) (h2 : Heap K) (st2 : RState),
      gref < h.next →
      genLoopH gref n fuel results h st = (out, h2, st2) →
      genLoop (h.cells gref) n fuel results st = (out, st2) := by
  intro fuel
  induction fuel with
  | zero =>
    intro results h st out h2 st2 hg heq
    rw [genLoopH.eq_1] at heq
    rw [genLoop.eq_1]
    split at heq
    · next hge => cases heq; rw [if_pos hge]
    · next hge => cases heq; rw [if_neg hge]
  | succ f ih =>
    intro results h st out h2 st2 hg heq
    rw [genLoopH.eq_2] at heq
    rw [genLoop.eq_2]
    split at heq
    · next hge => cases heq; rw [if_pos hge]
    · next hge =>
      rw [if_neg hge]
      split at heq
      · next h3 st3 heqr =>
        cases heq
        rw [rewire_networkH_eq _ _ _ _ _ _ _ _ heqr]
      · next h3 st3 heqr =>
        cases heq
        rw [rewire_networkH_eq _ _ _ _ _ _ _ _ heqr]
      · next e h3 st3 heqr =>
        rw [rewire_networkH_eq _ _ _ _ _ _ _ _ heqr]
        dsimp only
        obtain ⟨hmono, hcells⟩ := rewire_networkH_frame _ _ _ _ _ _ _ _ heqr
        split at heq
        · next hf => cases heq; rw [if_pos hf]
        · next hf =>
          rw [if_neg hf]
          have hrec := ih _ _ _ _ _ _ (by omega) heq
          rw [hcells gref hg] at hrec
          exact hrec
      · next h3 st3 heqr =>
        rw [rewire_networkH_eq _ _ _ _ _ _ _ _ heqr]
        dsimp only
        obtain ⟨hmono, hcells⟩ := rewire_networkH_frame _ _ _ _ _ _ _ _ heqr
        split at heq
        · next hf => cases heq; rw [if_pos hf]
        · next hf =>
          rw [if_neg hf]
          have hrec := ih _ _ _ _ _ _ (by omega) heq
          rw [hcells gref hg] at hrec
          exact hrec

/-- `generate_networksH` computes the same outcome and stream state as
`generate_networks` applied to the contents of the caller's cell. -/
theorem generate_networksH_eq {K : Type} [BEq K] (h : Heap K) (gref : Nat)
    (n : Nat) (seed : Option Int) (ilt : Nat) (st : RState)
    (out : GenResult K) (h2 : Heap K) (st2 : RState) (hg : gref < h.next)
    (heq : generate_networksH h gref n seed ilt st = (out, h2, st2)) :
    generate_networks (h.cells gref) n seed ilt st = (out, st2) :=
  genLoopH_eq_genLoop gref n ilt [] h (maybeSeed seed st) out h2 st2 hg heq

end RewireNet
